import Mathlib

/-
  Verification of the nig_cli genomic-study upload tool.

  Shallow embedding of src/nig/upload.py: metadata parsing helpers, the local
  study-tree builder (validate_study), the reconciliation of a local study tree
  against remote state (update_study_tree), the resumable chunked-upload loop of
  upload_study, the batch loop of upload, and the retrying request wrapper.

  Modeling conventions:
  - Python dicts that map names to values become association lists in insertion
    order; dict membership becomes a first-match lookup (names are unique in
    every reachable state, so first-match and last-write coincide).
  - Network calls are abstracted by their data: every GET performed by
    update_study_tree is assumed to answer 200 with the contents recorded in a
    RemoteState value (non-200 answers raise retrieval errors before any logic
    of interest runs, and console output has no effect on results).
  - Exceptions become an Err-valued Except; Python built-in ValueError, which is
    distinct from every exception class the script defines and is caught
    nowhere, is the dedicated constructor Err.pyValueError.
  - String primitives of Python are re-implemented on the character list of a
    Lean String so that every definition evaluates inside the kernel.
-/

namespace NigUpload

deriving instance DecidableEq for Except

/-- Suffix test on strings, the model of the Python str.endswith method. -/
def endsWithStr (s suf : String) : Bool :=
  suf.data.isSuffixOf s.data

/-- Split a character list at every occurrence of the separator, the model of
the Python str.split method with a one-character separator: it never returns an
empty list, and an empty input yields one empty field. -/
def splitOnChar (c : Char) : List Char → List (List Char)
  | [] => [[]]
  | x :: xs =>
    if x = c then [] :: splitOnChar c xs
    else
      match splitOnChar c xs with
      | [] => [[x]]
      | l :: ls => (x :: l) :: ls

/-- Comma split of a string, as used for hpo and dataset columns. -/
def commaSplit (s : String) : List String :=
  (splitOnChar ',' s.data).map String.mk

/-- Whitespace trim on a character list, the model of the whitespace stripping
the Python int built-in performs on its string argument. -/
def pyTrim (l : List Char) : List Char :=
  ((l.dropWhile Char.isWhitespace).reverse.dropWhile Char.isWhitespace).reverse

/-- Decimal value of a digit list. -/
def digitsToNat (l : List Char) : Nat :=
  l.foldl (fun acc c => 10 * acc + (c.toNat - '0'.toNat)) 0

/-- Model of the Python int built-in on a string: surrounding whitespace is
ignored, an optional sign is followed by at least one decimal digit; none
models the ValueError raised on any other input. Grouping underscores and
non-ASCII digits accepted by CPython are not modeled; no claim involves them. -/
def pyInt (s : String) : Option Int :=
  match pyTrim s.data with
  | [] => none
  | c :: rest =>
    let sign : Int := if c = '-' then -1 else 1
    let digits := if c = '-' ∨ c = '+' then rest else c :: rest
    if digits.isEmpty then none
    else if digits.all Char.isDigit then some (sign * (digitsToNat digits : Int))
    else none

/-- First index of a key in the header, the model of the Python list.index
method guarded by the preceding membership test. -/
def headerIndex (key : String) : List String → Option Nat
  | [] => none
  | h :: rest => if h = key then some 0 else (headerIndex key rest).map (· + 1)

/-- Transcription of get_value from upload.py: optional column lookup by header
name; a missing header, a key absent from the header, a row shorter than the
column index, the empty value, the dash value and the literal N/A all resolve
to none, and any other value is returned unchanged. -/
def get_value (key : String) (header : List String) (line : List String) : Option String :=
  if header.isEmpty then none
  else
    match headerIndex key header with
    | none => none
    | some index =>
      match line.get? index with
      | none => none
      | some value =>
        if value = "" then none
        else if value = "-" then none
        else if value = "N/A" then none
        else some value

/-- Error kinds of upload.py, one constructor per exception class that the
modeled code can raise, plus pyValueError for the Python built-in ValueError
(raised by int on a non-numeric string and caught nowhere in upload.py). -/
inductive Err where
  | requestMethod
  | phenotypeMalformed
  | phenotypeName
  | invalidSex
  | invalidAge
  | invalidHpo
  | pyValueError
  | relationshipErr
  | technicalMalformed
  | unknownPlatform
  | technicalAssociated (name : String)
  | retrieveExistingStudy
  | uploadFailed (code : Nat)
  deriving DecidableEq, Repr

/-- Age fragment of parse_file_ped (upload.py lines 375 to 381): look the age
column up with get_value; when present, int(age) raises ValueError on a
non-numeric string, a negative value raises AgeException, and otherwise the
integer age is stored. -/
def ageStep (header line : List String) : Except Err (Option Int) :=
  match get_value "age" header line with
  | none => .ok none
  | some a =>
    match pyInt a with
    | none => .error .pyValueError
    | some n => if n < 0 then .error .invalidAge else .ok (some n)

/-- Phenotype record: the name and, for reconciliation, the remote uuid mark
that update_study_tree adds in place. The clinical fields (sex, age, birth
place, hpo) are never read by the reconciliation logic under verification. -/
structure Phenotype where
  name : String
  uuid : Option String := none
  deriving DecidableEq, Repr

/-- Properties dict of a technical record. Only the name is ever read by the
association checks and the reconciliation; sequencing_date, platform and
enrichment_kit are write-only in the modeled code paths. -/
structure TechProperties where
  name : String
  deriving DecidableEq, Repr

/-- Technical record: its properties, the optional datasets key (absent when
the dataset column was absent), and the remote uuid mark added in place by
update_study_tree. -/
structure Technical where
  properties : TechProperties
  datasets : Option (List String) := none
  uuid : Option String := none
  deriving DecidableEq, Repr

/-- Datasets declared by a technical, empty when the datasets key is absent. -/
def declaredDatasets (t : Technical) : List String :=
  t.datasets.getD []

/-- One line of a tab-separated metadata file, already split on tabs: either a
header line (its leading hash removed, lower-cased) or a data row. -/
inductive FileRow where
  | header (cols : List String)
  | data (cols : List String)
  deriving DecidableEq, Repr

/-- Supported platform list of parse_file_tech. -/
def supported_platforms : List String :=
  ["Illumina", "Ion", "Pacific Biosciences", "Roche 454", "SOLiD", "SNP-array", "Other"]

/-- One data row of parse_file_tech: a row with fewer than 4 fields is
malformed; a non-empty platform outside the supported list is rejected; the
optional dataset column is comma-split and every named dataset must exist
locally. The date field is only stored, never branched on, and is dropped from
the record model. -/
def parseTechRow (datasets : List String) (header line : List String) : Except Err Technical :=
  match line with
  | name :: _date :: platform :: _kit :: _ =>
    if platform ≠ "" ∧ platform ∉ supported_platforms then .error .unknownPlatform
    else
      match get_value "dataset" header line with
      | some v =>
        if v ≠ "-" then
          let ds := commaSplit v
          if ds.all (fun d => decide (d ∈ datasets)) then .ok ⟨⟨name⟩, some ds, none⟩
          else .error (.technicalAssociated name)
        else .ok ⟨⟨name⟩, none, none⟩
      | none => .ok ⟨⟨name⟩, none, none⟩
  | _ => .error .technicalMalformed

/-- Row loop of parse_file_tech: a header row replaces the current header, a
data row is parsed against it, and rows are accumulated in file order. -/
def parseTechRows (datasets : List String) : List FileRow → List String → Except Err (List Technical)
  | [], _ => .ok []
  | .header cols :: rest, _ => parseTechRows datasets rest cols
  | .data line :: rest, header =>
    match parseTechRow datasets header line with
    | .error e => .error e
    | .ok t =>
      match parseTechRows datasets rest header with
      | .error e => .error e
      | .ok ts => .ok (t :: ts)

/-- Inner accumulation of the multi-technical association check: each dataset
name is appended to the running associated list, and a name already present
(claimed by an earlier technical, or earlier in the same list) is an error. -/
def addAssociated (assoc : List String) : List String → Except Err (List String)
  | [] => .ok assoc
  | d :: ds =>
    if d ∈ assoc then .error (.technicalAssociated d)
    else addAssociated (assoc ++ [d]) ds

/-- Outer loop of the multi-technical association check: every technical must
carry a datasets key, and no dataset may be claimed twice. -/
def techCheckLoop (assoc : List String) : List Technical → Except Err Unit
  | [] => .ok ()
  | t :: rest =>
    match t.datasets with
    | none => .error (.technicalAssociated t.properties.name)
    | some ds =>
      match addAssociated assoc ds with
      | .error e => .error e
      | .ok assoc2 => techCheckLoop assoc2 rest

/-- Final check of parse_file_tech (upload.py lines 495 to 510): only run when
more than one technical was parsed. -/
def checkTechAssociations (ts : List Technical) : Except Err Unit :=
  if 1 < ts.length then techCheckLoop [] ts else .ok ()

/-- Transcription of parse_file_tech: parse all rows, then run the
multi-technical association check on the parsed list. -/
def parse_file_tech (datasets : List String) (rows : List FileRow) : Except Err (List Technical) :=
  match parseTechRows datasets rows [] with
  | .error e => .error e
  | .ok ts =>
    match checkTechAssociations ts with
    | .error e => .error e
    | .ok _ => .ok ts

/-- One candidate data file inside a dataset directory: its name, whether it is
a regular file, and its size in bytes. -/
structure FileNode where
  name : String
  isFile : Bool
  size : Nat
  deriving DecidableEq, Repr

/-- One entry of the study directory: a subdirectory with its children (a
candidate dataset) or a non-directory entry such as pedigree.txt. -/
inductive StudyEntry where
  | dir (name : String) (children : List FileNode)
  | nondir (name : String)
  deriving DecidableEq, Repr

/-- File filter of validate_study: a regular file whose name ends in .fastq.gz
and whose size is at least one byte. -/
def qualifies (f : FileNode) : Bool :=
  f.isFile && endsWithStr f.name ".fastq.gz" && decide (1 ≤ f.size)

/-- Append files under a dataset key, the model of the per-file setdefault and
append of validate_study: an existing key keeps its position and grows, a new
key is added at the end in insertion order. -/
def insertFiles (datasets : List (String × List FileNode)) (dname : String)
    (fs : List FileNode) : List (String × List FileNode) :=
  match datasets with
  | [] => [(dname, fs)]
  | (k, v) :: rest =>
    if k = dname then (k, v ++ fs) :: rest
    else (k, v) :: insertFiles rest dname fs

/-- First-match lookup of a dataset key, the model of the dict get. -/
def lookupDataset (datasets : List (String × List FileNode)) (dname : String) :
    Option (List FileNode) :=
  (datasets.find? (fun p => p.1 == dname)).map (·.2)

/-- Directory walk of validate_study: each subdirectory contributes its
qualifying children (non-qualifying children are only warned about); a dataset
holding more than two qualifying files abandons the study at once, and an empty
dataset map after the walk abandons the study. -/
def buildDatasets : List StudyEntry → List (String × List FileNode) →
    Option (List (String × List FileNode))
  | [], acc => if acc.isEmpty then none else some acc
  | .nondir _ :: rest, acc => buildDatasets rest acc
  | .dir dname children :: rest, acc =>
    let qs := children.filter qualifies
    let acc2 := if qs.isEmpty then acc else insertFiles acc dname qs
    match lookupDataset acc2 dname with
    | some l => if 2 < l.length then none else buildDatasets rest acc2
    | none => buildDatasets rest acc2

/-- Local study tree assembled by validate_study. The phenotypes and technicals
fields are empty lists when the corresponding metadata file is absent, and the
relationships key exists exactly when a pedigree file was parsed. -/
structure StudyTree where
  name : String
  datasets : List (String × List FileNode)
  phenotypes : List Phenotype := []
  relationships : Option (List (String × List String)) := none
  technicals : List Technical := []
  deriving DecidableEq, Repr

/-- Transcription of validate_study: build the dataset map from the directory
walk, then attach the outcome of parsing pedigree.txt and technical.txt. The
two parse outcomes are passed as data: none models an absent file, and a parse
error abandons the study. -/
def validate_study (name : String) (entries : List StudyEntry)
    (pedResult : Option (Except Err (List Phenotype × List (String × List String))))
    (techResult : Option (Except Err (List Technical))) : Option StudyTree :=
  match buildDatasets entries [] with
  | none => none
  | some ds =>
    match pedResult with
    | some (.error _) => none
    | some (.ok pr) =>
      match techResult with
      | some (.error _) => none
      | some (.ok ts) => some ⟨name, ds, pr.1, some pr.2, ts⟩
      | none => some ⟨name, ds, pr.1, some pr.2, []⟩
    | none =>
      match techResult with
      | some (.error _) => none
      | some (.ok ts) => some ⟨name, ds, [], none, ts⟩
      | none => some ⟨name, ds, [], none, []⟩

/-- Names of the directory entries of a study, in walk order. -/
def dirNames (entries : List StudyEntry) : List String :=
  entries.filterMap (fun e =>
    match e with
    | .dir n _ => some n
    | .nondir _ => none)

/-- Dataset entry a single directory entry contributes on a clean walk. -/
def collectEntry : StudyEntry → Option (String × List FileNode)
  | .dir n ch => if (ch.filter qualifies).isEmpty then none else some (n, ch.filter qualifies)
  | .nondir _ => none

/-- Expected dataset map of a clean walk: each subdirectory with at least one
qualifying child contributes its qualifying children under its name. -/
def collectDatasets (entries : List StudyEntry) : List (String × List FileNode) :=
  entries.filterMap collectEntry

/-- Remote state read by update_study_tree, one field per GET answer: the study
list, and for the matched study its datasets (name, uuid, status), phenotypes
(name, uuid) and technicals (name, uuid). -/
structure RemoteState where
  studies : List (String × String)
  datasets : List (String × String × String)
  phenotypes : List (String × String)
  technicals : List (String × String)
  deriving DecidableEq, Repr

/-- Updated study tree returned by update_study_tree. Optional fields model
dict keys that are only sometimes written: phenotypes is present exactly when
the local tree has phenotypes, relationships exactly when the local tree has
the key and new phenotypes remain, technicals exactly when the local tree has
technicals. -/
structure Plan where
  study_uuid : String
  name : String
  datasets : List (String × List FileNode)
  phenotypes : Option (List Phenotype)
  relationships : Option (List (String × List String))
  technicals : Option (List Technical)
  deriving DecidableEq, Repr

/-- Dataset phase of update_study_tree: when the remote dataset map is truthy
the datasets key is written with the local datasets whose names are not remote;
when the remote map is empty the key is never written, which the subsequent
key-presence test turns into the null plan. -/
def reconcileDatasets (localDatasets : List (String × List FileNode))
    (remoteDatasets : List (String × String × String)) :
    Option (List (String × List FileNode)) :=
  if remoteDatasets.isEmpty then none
  else some (localDatasets.filter (fun d => (remoteDatasets.find? (fun el => el.1 == d.1)).isNone))

/-- Phenotype phase of update_study_tree: a phenotype existing remotely is
marked with its uuid and kept; a phenotype missing remotely must name a dataset
that is still pending creation, is recorded for upload, and is kept. -/
def reconcilePhenotypes (newNames : List String) (exPhen : List (String × String)) :
    List Phenotype → Except Err (List Phenotype × List String)
  | [] => .ok ([], [])
  | p :: rest =>
    match exPhen.find? (fun el => el.1 == p.name) with
    | some el =>
      match reconcilePhenotypes newNames exPhen rest with
      | .error e => .error e
      | .ok (ps, ups) => .ok ({ p with uuid := some el.2 } :: ps, ups)
    | none =>
      if p.name ∈ newNames then
        match reconcilePhenotypes newNames exPhen rest with
        | .error e => .error e
        | .ok (ps, ups) => .ok (p :: ps, p.name :: ups)
      else .error .phenotypeName

/-- Per-dataset filter inside the technical loop of update_study_tree: a
declared dataset still pending creation is kept; one already remote is dropped,
but if the owning technical does not itself exist remotely this raises at
once. -/
def scopeDatasets (tname : String) (isRemote : Bool) (newNames : List String) :
    List String → Except Err (List String)
  | [] => .ok []
  | d :: rest =>
    if d ∈ newNames then
      match scopeDatasets tname isRemote newNames rest with
      | .error e => .error e
      | .ok l => .ok (d :: l)
    else if isRemote then scopeDatasets tname isRemote newNames rest
    else .error (.technicalAssociated tname)

/-- Entries that one technical contributes to the updated technicals list
(upload.py lines 822 to 843). A technical with a datasets key is re-scoped to
its pending datasets; an empty result skips the rest of the loop body, and a
non-empty result is appended and then, after the uuid mark for a remotely
existing name is set on the same record, appended a second time. A technical
without a datasets key gets the uuid mark when remote and is appended once. -/
def techEmit (newNames : List String) (exTech : List (String × String)) (t : Technical) :
    Except Err (List Technical) :=
  let found := exTech.find? (fun el => el.1 == t.properties.name)
  match t.datasets with
  | some ds =>
    match scopeDatasets t.properties.name found.isSome newNames ds with
    | .error e => .error e
    | .ok f =>
      if f.isEmpty then .ok []
      else
        let t1 : Technical := { t with datasets := some f }
        let t2 := match found with
          | some el => { t1 with uuid := some el.2 }
          | none => t1
        .ok [t2, t2]
  | none =>
    let t2 := match found with
      | some el => { t with uuid := some el.2 }
      | none => t
    .ok [t2]

/-- Technical loop of update_study_tree: technicals are processed in order and
their emitted entries concatenated; the first error aborts. -/
def reconcileTechnicals (newNames : List String) (exTech : List (String × String)) :
    List Technical → Except Err (List Technical)
  | [] => .ok []
  | t :: rest =>
    match techEmit newNames exTech t with
    | .error e => .error e
    | .ok l =>
      match reconcileTechnicals newNames exTech rest with
      | .error e => .error e
      | .ok l2 => .ok (l ++ l2)

/-- Transcription of update_study_tree on the success path of its GET calls:
resolve the study uuid by name (a miss is fatal), run the dataset phase (a
missing datasets key returns the null plan), the phenotype phase, the
relationship filter (dropped entirely when no phenotype is pending), and the
technical loop. -/
def update_study_tree (tree : StudyTree) (remote : RemoteState) : Except Err (Option Plan) :=
  match remote.studies.find? (fun el => el.1 == tree.name) with
  | none => .error .retrieveExistingStudy
  | some stEl =>
    match reconcileDatasets tree.datasets remote.datasets with
    | none => .ok none
    | some newDatasets =>
      let newNames := newDatasets.map (·.1)
      match reconcilePhenotypes newNames remote.phenotypes tree.phenotypes with
      | .error e => .error e
      | .ok (phens, toUpload) =>
        let phenPlan : Option (List Phenotype) :=
          if tree.phenotypes.isEmpty then none else some phens
        let relPlan : Option (List (String × List String)) :=
          match tree.relationships with
          | none => none
          | some rels =>
            if toUpload.isEmpty then none
            else some (rels.filter (fun pr => decide (pr.1 ∈ toUpload)))
        match reconcileTechnicals newNames remote.technicals tree.technicals with
        | .error e => .error e
        | .ok techs =>
          let techPlan : Option (List Technical) :=
            if tree.technicals.isEmpty then none else some techs
          .ok (some ⟨stEl.2, tree.name, newDatasets, phenPlan, relPlan, techPlan⟩)

/-- Content-Range pairs produced by the chunked-upload loop of upload_study on
the path where every PUT is answered (upload.py lines 1092 to 1152): range_start
begins at minus one, is incremented by one before each send and by chunk after
each 206 answer, and range_max is the minimum of range_start plus chunk and the
file size. The fuel argument bounds the recursion; the read position strictly
increases whenever chunk is positive, so the chosen fuel is never exhausted. -/
def chunkRangesAux (fuel : Nat) (pos : Nat) (range_start : Int) (chunk filesize : Nat) :
    List (Int × Int) :=
  match fuel with
  | 0 => []
  | fuel + 1 =>
    if filesize ≤ pos then []
    else
      let rs := range_start + 1
      let rmax : Int := min (rs + chunk) (filesize : Int)
      (rs, rmax) :: chunkRangesAux fuel (pos + min chunk (filesize - pos)) (rs + chunk) chunk filesize

/-- Successive Content-Range pairs (start, end) sent for one file of the given
size with the given chunk size, starting from position zero and range_start
minus one as upload_study does. -/
def contentRanges (filesize chunk : Nat) : List (Int × Int) :=
  chunkRangesAux (filesize + 1) 0 (-1) chunk filesize

/-- Outcome of one chunk PUT as seen by the loop in upload_study: either the
call raised a transport exception (ConnectionError or ReadTimeout), after which
get_ip answers newIP, or it returned a response with the given status code. -/
inductive Attempt where
  | transport (newIP : String)
  | status (code : Nat)
  deriving DecidableEq, Repr

/-- How the chunk loop of upload_study ends. ipAbort models the early return
through error after a transport failure with a changed address; complete the
break on status 200; failed an UploadException on another status; eofNot200 the
post-loop UploadException when the file is exhausted with a last status other
than 200; noData the loop ending without any request; starved marks a script of
attempt outcomes too short for the run, a modeling artifact. -/
inductive LoopResult where
  | ipAbort (newIP : String)
  | complete
  | failed (code : Nat)
  | eofNot200 (code : Nat)
  | noData
  | starved
  deriving DecidableEq, Repr

/-- How the loop ends when the read returns no data: the post-loop status test
raises unless the last response was a 200 (which in fact already broke the
loop); with no response at all the status test has nothing to read. -/
def chunkEofResult (last : Option Nat) : LoopResult :=
  match last with
  | some c => if c = 200 then .complete else .eofNot200 c
  | none => .noData

/-- Chunk loop of upload_study, driven by a script of attempt outcomes, one per
PUT performed. State: the file position, range_start, and the status of the last
response. Returns how the loop ends and the trace of attempts, each recorded as
the file position of the chunk with the start and end of its Content-Range. The
empty-read test runs before any attempt is consumed; on a transport failure
with an unchanged address the file is rewound to the position of the failed
chunk and range_start is decremented back. -/
def uploadLoop (ipAddr : String) (filesize chunk : Nat) :
    List Attempt → Nat → Int → Option Nat → LoopResult × List (Nat × Int × Int)
  | [], pos, range_start, last =>
    if filesize ≤ pos then (chunkEofResult last, [])
    else
      (.starved, [(pos, range_start + 1, min (range_start + 1 + chunk) (filesize : Int))])
  | .transport newIP :: rest, pos, range_start, last =>
    if filesize ≤ pos then (chunkEofResult last, [])
    else
      let rs := range_start + 1
      let rmax : Int := min (rs + chunk) (filesize : Int)
      if newIP ≠ ipAddr then (.ipAbort newIP, [(pos, rs, rmax)])
      else
        let r := uploadLoop ipAddr filesize chunk rest pos (rs - 1) last
        (r.1, (pos, rs, rmax) :: r.2)
  | .status code :: rest, pos, range_start, last =>
    if filesize ≤ pos then (chunkEofResult last, [])
    else
      let rs := range_start + 1
      let rmax : Int := min (rs + chunk) (filesize : Int)
      if code ≠ 206 then
        if code = 200 then (.complete, [(pos, rs, rmax)])
        else (.failed code, [(pos, rs, rmax)])
      else
        let r := uploadLoop ipAddr filesize chunk rest
          (pos + min chunk (filesize - pos)) (rs + chunk) (some 206)
        (r.1, (pos, rs, rmax) :: r.2)

/-- Outcome of processing one study inside the batch loop of upload: a normal
return (including every early return through error, in particular the changed
address abort, which raises nothing), or a raised exception. -/
inductive StudyOutcome where
  | ok
  | ipAborted
  | raised (e : Err)
  deriving DecidableEq, Repr

/-- Batch loop of upload (upload.py lines 1293 to 1358): studies are processed
in order inside one try block, so a raised exception ends the batch, while any
normal return of upload_study, the changed address abort included, moves on to
the next study. Returns the outcomes of the studies actually processed. -/
def runBatch : List StudyOutcome → List StudyOutcome
  | [] => []
  | o :: rest =>
    match o with
    | .raised e => [.raised e]
    | .ok => .ok :: runBatch rest
    | .ipAborted => .ipAborted :: runBatch rest

/-- Outcome of one attempt inside request: the underlying requests call either
returned a response with the given status code or raised (the bare except
clause catches every exception, transport errors included). -/
inductive AttemptOutcome where
  | resp (code : Nat)
  | exc
  deriving DecidableEq, Repr

/-- Result of the request wrapper: a returned response, the raised
RequestMethodError, or a transport exception escaping to the caller. The last
constructor exists so that its impossibility is a statement, not a typing
accident. -/
inductive ReqResult where
  | resp (code : Nat)
  | methodError
  | transportRaised
  deriving DecidableEq, Repr

/-- Retry loop of request: up to the given number of attempts, returning the
first response; every raised exception is caught and the next attempt made. -/
def tryAttempts (outcomes : Nat → AttemptOutcome) : Nat → Nat → Option Nat
  | 0, _ => none
  | n + 1, i =>
    match outcomes i with
    | .resp code => some code
    | .exc => tryAttempts outcomes n (i + 1)

/-- Body shared by the four method branches of request: three attempts; if none
returned, control falls out of the branch, past the remaining method tests, to
the final raise of RequestMethodError. -/
def requestAttemptLoop (outcomes : Nat → AttemptOutcome) : ReqResult :=
  match tryAttempts outcomes 3 0 with
  | some code => .resp code
  | none => .methodError

/-- Transcription of request (upload.py lines 170 to 254): one retry loop per
recognized method, then the unconditional raise of RequestMethodError for
anything that did not return earlier. -/
def request (method : String) (outcomes : Nat → AttemptOutcome) : ReqResult :=
  if method = "post" then requestAttemptLoop outcomes
  else if method = "put" then requestAttemptLoop outcomes
  else if method = "patch" then requestAttemptLoop outcomes
  else if method = "get" then requestAttemptLoop outcomes
  else .methodError

/- Theorems. Helper lemmas come first, then one theorem per claim together
with its witness or counterexample. -/

theorem headerIndex_eq_none {key : String} {header : List String}
    (h : key ∉ header) : headerIndex key header = none := by
  induction header with
  | nil => rfl
  | cons a rest ih =>
    simp only [List.mem_cons, not_or] at h
    unfold headerIndex
    rw [if_neg (fun he => h.1 he.symm), ih h.2]
    rfl

/-- C8: get_value resolves a key missing from the header, a row too short to
hold the column, an empty value, a dash and the literal N/A uniformly to none,
and returns any other value unchanged. -/
theorem get_value_spec :
    ∀ (key : String) (header line : List String),
      (key ∉ header → get_value key header line = none) ∧
      (∀ i, headerIndex key header = some i →
        (line.length ≤ i → get_value key header line = none) ∧
        (∀ v, line.get? i = some v →
          ((v = "" ∨ v = "-" ∨ v = "N/A") → get_value key header line = none) ∧
          (v ≠ "" → v ≠ "-" → v ≠ "N/A" → get_value key header line = some v))) := by
  intro key header line
  constructor
  · intro hk
    unfold get_value
    by_cases he : header.isEmpty
    · simp [he]
    · simp [he, headerIndex_eq_none hk]
  · intro i hi
    have hne : header.isEmpty = false := by
      cases header with
      | nil => simp [headerIndex] at hi
      | cons a l => rfl
    constructor
    · intro hlen
      have hval : line.get? i = none := List.get?_eq_none.mpr hlen
      unfold get_value
      simp only [List.get?_eq_getElem?] at hval
      simp [hne, hi, hval]
    · intro v hv
      simp only [List.get?_eq_getElem?] at hv
      constructor
      · rintro (rfl | rfl | rfl) <;> simp [get_value, hne, hi, hv]
      · intro h1 h2 h3
        simp [get_value, hne, hi, hv, h1, h2, h3]

/-- C8 witness: concrete instances of the three behaviors. -/
theorem get_value_spec_witness :
    get_value "hpo" ["age"] ["5"] = none ∧
    get_value "age" ["age"] ["N/A"] = none ∧
    get_value "age" ["age"] ["7"] = some "7" :=
  ⟨(get_value_spec "hpo" ["age"] ["5"]).1 (by decide),
   (((get_value_spec "age" ["age"] ["N/A"]).2 0 (by decide)).2 "N/A" rfl).1 (by simp),
   (((get_value_spec "age" ["age"] ["7"]).2 0 (by decide)).2 "7" rfl).2
     (by decide) (by decide) (by decide)⟩

/-- C9: for every recognized method, request catches each attempt exception
internally; when all three attempts raise it falls through to the final raise
of RequestMethodError, and a transport exception never escapes request. -/
theorem request_swallows_transport :
    ∀ (method : String) (outcomes : Nat → AttemptOutcome),
      (method = "get" ∨ method = "post" ∨ method = "put" ∨ method = "patch") →
      ((∀ i, i < 3 → outcomes i = .exc) → request method outcomes = .methodError) ∧
      request method outcomes ≠ .transportRaised := by
  intro method outcomes hm
  have key : ∀ o : Nat → AttemptOutcome,
      ((∀ i, i < 3 → o i = .exc) → requestAttemptLoop o = .methodError) ∧
      requestAttemptLoop o ≠ .transportRaised := by
    intro o
    constructor
    · intro hexc
      have h3 : tryAttempts o 3 0 = none := by
        simp [tryAttempts, hexc 0 (by omega), hexc 1 (by omega), hexc 2 (by omega)]
      simp [requestAttemptLoop, h3]
    · unfold requestAttemptLoop
      cases tryAttempts o 3 0 <;> simp
  have hg : request method outcomes = requestAttemptLoop outcomes := by
    rcases hm with rfl | rfl | rfl | rfl <;> rfl
  rw [hg]
  exact key outcomes

/-- C9 witness: a GET whose three attempts all raise ends in
RequestMethodError, not in an escaped transport exception. -/
theorem request_swallows_transport_witness :
    request "get" (fun _ => AttemptOutcome.exc) = .methodError :=
  (request_swallows_transport "get" (fun _ => .exc) (Or.inl rfl)).1 (fun _ _ => rfl)

theorem chunkRangesAux_snd (fuel : Nat) :
    ∀ (pos : Nat) (rs : Int) (chunk filesize : Nat),
      ∀ p ∈ chunkRangesAux fuel pos rs chunk filesize,
        p.2 = min (p.1 + chunk) (filesize : Int) := by
  induction fuel with
  | zero => intro pos rs chunk filesize p hp; simp [chunkRangesAux] at hp
  | succ n ih =>
    intro pos rs chunk filesize p hp
    unfold chunkRangesAux at hp
    by_cases h : filesize ≤ pos
    · simp [h] at hp
    · simp only [h, if_false, ite_false, List.mem_cons] at hp
      rcases hp with rfl | hp
      · rfl
      · exact ih _ _ _ _ p hp

theorem chunkRangesAux_head (fuel : Nat) :
    ∀ (pos : Nat) (rs : Int) (chunk filesize : Nat) (p : Int × Int) (l : List (Int × Int)),
      chunkRangesAux fuel pos rs chunk filesize = p :: l → p.1 = rs + 1 := by
  intro pos rs chunk filesize p l h
  cases fuel with
  | zero => simp [chunkRangesAux] at h
  | succ n =>
    unfold chunkRangesAux at h
    by_cases hle : filesize ≤ pos
    · simp [hle] at h
    · simp only [hle, if_false, ite_false, List.cons.injEq] at h
      rw [← h.1]

theorem chunkRangesAux_chain (fuel : Nat) :
    ∀ (pos : Nat) (rs : Int) (chunk filesize : Nat),
      List.Chain' (fun p q : Int × Int => q.1 = p.1 + chunk + 1)
        (chunkRangesAux fuel pos rs chunk filesize) := by
  induction fuel with
  | zero => intro pos rs chunk filesize; simp [chunkRangesAux]
  | succ n ih =>
    intro pos rs chunk filesize
    unfold chunkRangesAux
    by_cases h : filesize ≤ pos
    · simp [h]
    · simp only [h, if_false, ite_false]
      rw [List.chain'_cons']
      refine ⟨?_, ih _ _ _ _⟩
      intro q hq
      cases htl : chunkRangesAux n (pos + min chunk (filesize - pos)) (rs + 1 + chunk) chunk filesize with
      | nil => rw [htl] at hq; simp at hq
      | cons a l =>
        rw [htl] at hq
        simp only [List.head?_cons, Option.mem_def, Option.some.injEq] at hq
        have ha := chunkRangesAux_head n _ _ _ _ a l htl
        rw [← hq, ha]

/-- C1 counterexample: for a 40-byte file and 16-byte chunks the loop sends
ranges 0-16, 17-33 and 34-40, not the claimed 0-16, 16-32, 32-40. -/
theorem chunk_ranges_counterexample :
    contentRanges 40 16 ≠ [(0, 16), (16, 32), (32, 40)] ∧
    contentRanges 40 16 = [(0, 16), (17, 33), (34, 40)] := by
  constructor <;> decide

/-- C1 amended: for filesize 40 and chunk 16 the successive Content-Range pairs
are 0-16, 17-33 and 34-40; in general the first chunk starts at 0, each later
start exceeds the previous start by chunk plus one (one past the previous end
whenever the previous chunk was full), and each end is the minimum of start
plus chunk and the total size. -/
theorem chunk_ranges_amended :
    contentRanges 40 16 = [(0, 16), (17, 33), (34, 40)] ∧
    ∀ filesize chunk : Nat,
      (∀ p ∈ contentRanges filesize chunk, p.2 = min (p.1 + chunk) (filesize : Int)) ∧
      List.Chain' (fun p q : Int × Int => q.1 = p.1 + chunk + 1) (contentRanges filesize chunk) ∧
      (∀ (p : Int × Int) (l : List (Int × Int)),
        contentRanges filesize chunk = p :: l → p.1 = 0) := by
  refine ⟨by decide, fun filesize chunk => ⟨chunkRangesAux_snd _ _ _ _ _, chunkRangesAux_chain _ _ _ _ _, ?_⟩⟩
  intro p l h
  have := chunkRangesAux_head (filesize + 1) 0 (-1) chunk filesize p l h
  omega

/-- C1 witness: the bound on the first range of the 40 and 16 instance,
obtained from the general part of the amended theorem. -/
theorem chunk_ranges_amended_witness :
    ((0 : Int), (16 : Int)).2 = min (((0 : Int), (16 : Int)).1 + ((16 : Nat) : Int)) ((40 : Nat) : Int) :=
  (chunk_ranges_amended.2 40 16).1 (0, 16) (by decide)

/-- C7 counterexample: a non-numeric age raises the Python ValueError of the
int built-in, not the invalid-age error of the script. -/
theorem age_counterexample :
    ageStep ["age"] ["abc"] = .error .pyValueError ∧
    ageStep ["age"] ["abc"] ≠ .error .invalidAge := by
  constructor <;> decide

/-- C7 amended: when the age column is present, a value on which int raises
gives the uncaught ValueError, a value parsing to a negative integer gives the
invalid-age error, and a non-negative integer is stored. -/
theorem age_amended :
    ∀ (header line : List String) (a : String), get_value "age" header line = some a →
      (pyInt a = none → ageStep header line = .error .pyValueError) ∧
      ∀ n : Int, pyInt a = some n →
        (n < 0 → ageStep header line = .error .invalidAge) ∧
        (0 ≤ n → ageStep header line = .ok (some n)) := by
  intro header line a ha
  constructor
  · intro hnone
    simp [ageStep, ha, hnone]
  · intro n hn
    constructor
    · intro hneg
      simp [ageStep, ha, hn, hneg]
    · intro hpos
      simp [ageStep, ha, hn, not_lt.mpr hpos]

/-- C7 witness: a negative age raises the invalid-age error and a non-negative
age is stored, at concrete inputs. -/
theorem age_amended_witness :
    ageStep ["age"] ["-5"] = .error .invalidAge ∧ ageStep ["age"] ["7"] = .ok (some 7) :=
  ⟨((age_amended ["age"] ["-5"] "-5" (by decide)).2 (-5) (by decide)).1 (by decide),
   ((age_amended ["age"] ["7"] "7" (by decide)).2 7 (by decide)).2 (by decide)⟩

/-- C2 code-bug evidence: with every local dataset already remote (and the
remote dataset list non-empty) update_study_tree returns a non-null plan whose
dataset map is empty, and with an empty remote dataset list it returns the null
plan although every local dataset is still pending. -/
theorem null_plan_mismatch :
    update_study_tree ⟨"S", [("D1", [⟨"a.fastq.gz", true, 5⟩])], [], none, []⟩
        ⟨[("S", "u0")], [("D1", "u1", "ok")], [], []⟩
      = .ok (some ⟨"u0", "S", [], none, none, none⟩) ∧
    update_study_tree ⟨"S", [("D1", [⟨"a.fastq.gz", true, 5⟩])], [], none, []⟩
        ⟨[("S", "u0")], [], [], []⟩
      = .ok none := by
  constructor <;> decide

/-- C4 code-bug evidence: a technical existing remotely whose one declared
dataset is pending is kept twice in the plan, and a technical missing remotely
with a non-empty pending subset but one already-remote dataset fails with the
technical association error instead of being scheduled. -/
theorem technical_phase_bug :
    update_study_tree
        ⟨"S", [("D1", [⟨"a.fastq.gz", true, 5⟩])], [], none, [⟨⟨"T1"⟩, some ["D1"], none⟩]⟩
        ⟨[("S", "u0")], [("E", "u1", "ok")], [], [("T1", "ut")]⟩
      = .ok (some ⟨"u0", "S", [("D1", [⟨"a.fastq.gz", true, 5⟩])], none, none,
          some [⟨⟨"T1"⟩, some ["D1"], some "ut"⟩, ⟨⟨"T1"⟩, some ["D1"], some "ut"⟩]⟩) ∧
    update_study_tree
        ⟨"S", [("D1", [⟨"a.fastq.gz", true, 5⟩])], [], none, [⟨⟨"T2"⟩, some ["D1", "E"], none⟩]⟩
        ⟨[("S", "u0")], [("E", "u1", "ok")], [], []⟩
      = .error (.technicalAssociated "T2") := by
  constructor <;> decide

/-- C3 counterexample: a transport failure with a changed address ends the
chunk loop with the early ipAbort return of upload_study, and the batch loop
still processes the following study instead of aborting the entire run. -/
theorem ip_change_counterexample :
    (uploadLoop "ip0" 40 16 [.transport "ip1"] 0 (-1) none).1 = .ipAbort "ip1" ∧
    runBatch [.ipAborted, .ok] = [.ipAborted, .ok] ∧
    runBatch [.ipAborted, .ok] ≠ [.ipAborted] := by
  refine ⟨by decide, by decide, by decide⟩

/-- C3 amended: a transport failure with a changed address aborts the current
study at once with no retry (one traced attempt, nothing after it); a transport
failure with the unchanged address rewinds to the failed position and leaves
the loop state identical, so the next attempt carries the same position and the
same Content-Range; and the batch loop continues past a study that ended in the
abort. -/
theorem ip_change_amended :
    ∀ (ipAddr newIP : String) (filesize chunk pos : Nat) (rest : List Attempt)
      (rs : Int) (last : Option Nat),
      pos < filesize →
      (newIP ≠ ipAddr →
        uploadLoop ipAddr filesize chunk (.transport newIP :: rest) pos rs last
          = (.ipAbort newIP, [(pos, rs + 1, min (rs + 1 + chunk) (filesize : Int))])) ∧
      (newIP = ipAddr →
        uploadLoop ipAddr filesize chunk (.transport newIP :: rest) pos rs last
          = ((uploadLoop ipAddr filesize chunk rest pos rs last).1,
             (pos, rs + 1, min (rs + 1 + chunk) (filesize : Int))
               :: (uploadLoop ipAddr filesize chunk rest pos rs last).2)) ∧
      (∀ (a : Attempt) (rest2 : List Attempt),
        (uploadLoop ipAddr filesize chunk (a :: rest2) pos rs last).2.head?
          = some (pos, rs + 1, min (rs + 1 + chunk) (filesize : Int))) ∧
      (∀ outcomes : List StudyOutcome,
        runBatch (.ipAborted :: outcomes) = .ipAborted :: runBatch outcomes) := by
  intro ipAddr newIP filesize chunk pos rest rs last hpos
  have hnle : ¬ filesize ≤ pos := Nat.not_le.mpr hpos
  have hcancel : rs + 1 - 1 = rs := by ring
  refine ⟨?_, ?_, ?_, ?_⟩
  · intro hne
    simp [uploadLoop, hnle, hne]
  · intro heq
    simp [uploadLoop, hnle, heq, hcancel]
  · intro a rest2
    cases a with
    | transport ip2 =>
      by_cases h2 : ip2 = ipAddr <;> simp [uploadLoop, hnle, h2]
    | status code =>
      by_cases h2 : code = 206
      · simp [uploadLoop, hnle, h2]
      · by_cases h3 : code = 200 <;> simp [uploadLoop, hnle, h2, h3]
  · intro outcomes
    rfl

/-- C3 witness: the abort branch of the amended theorem at a concrete state. -/
theorem ip_change_amended_witness :
    uploadLoop "ip0" 40 16 [.transport "ip1"] 0 (-1) none
      = (.ipAbort "ip1", [(0, (-1 : Int) + 1, min ((-1 : Int) + 1 + ((16 : Nat) : Int)) ((40 : Nat) : Int))]) :=
  (ip_change_amended "ip0" "ip1" 40 16 0 [] (-1) none (by decide)).1 (by decide)

theorem addAssociated_ok :
    ∀ (ds assoc assoc2 : List String), addAssociated assoc ds = .ok assoc2 →
      (∀ d ∈ ds, d ∉ assoc) ∧ assoc2 = assoc ++ ds := by
  intro ds
  induction ds with
  | nil =>
    intro assoc assoc2 h
    simp only [addAssociated, Except.ok.injEq] at h
    simp [h]
  | cons d ds ih =>
    intro assoc assoc2 h
    unfold addAssociated at h
    by_cases hd : d ∈ assoc
    · simp [hd] at h
    · rw [if_neg hd] at h
      obtain ⟨h1, h2⟩ := ih _ _ h
      refine ⟨?_, ?_⟩
      · intro x hx
        rcases List.mem_cons.mp hx with rfl | hx2
        · exact hd
        · intro hmem
          exact h1 x hx2 (List.mem_append_left _ hmem)
      · rw [h2, List.append_assoc]
        rfl

theorem techCheckLoop_ok :
    ∀ (ts : List Technical) (assoc : List String), techCheckLoop assoc ts = .ok () →
      (∀ t ∈ ts, t.datasets ≠ none) ∧
      (∀ d ∈ assoc, ∀ t ∈ ts, d ∉ declaredDatasets t) ∧
      ts.Pairwise (fun a b => ∀ d ∈ declaredDatasets a, d ∉ declaredDatasets b) := by
  intro ts
  induction ts with
  | nil => intro assoc _; simp
  | cons t rest ih =>
    intro assoc h
    unfold techCheckLoop at h
    cases hds : t.datasets with
    | none => rw [hds] at h; exact absurd h (by simp)
    | some ds =>
      simp only [hds] at h
      cases ha : addAssociated assoc ds with
      | error e => simp [ha] at h
      | ok assoc2 =>
        simp only [ha] at h
        obtain ⟨hnm, rfl⟩ := addAssociated_ok ds assoc assoc2 ha
        obtain ⟨ih1, ih2, ih3⟩ := ih _ h
        have hdd : declaredDatasets t = ds := by simp [declaredDatasets, hds]
        refine ⟨?_, ?_, ?_⟩
        · intro t2 ht2
          rcases List.mem_cons.mp ht2 with rfl | ht3
          · simp [hds]
          · exact ih1 t2 ht3
        · intro d hd t2 ht2
          rcases List.mem_cons.mp ht2 with rfl | ht3
          · rw [hdd]
            intro hmem
            exact hnm d hmem hd
          · exact ih2 d (List.mem_append_left _ hd) t2 ht3
        · rw [List.pairwise_cons]
          refine ⟨?_, ih3⟩
          intro t2 ht2 d hd
          rw [hdd] at hd
          exact ih2 d (List.mem_append_right _ hd) t2 ht2

/-- C5: when the row phase parses more than one technical, the final check of
parse_file_tech fails whenever a technical lacks the datasets key or a dataset
name lies in the declared lists of two technicals (positions counted, as the
code also rejects a duplicate inside one list); a singleton technical list may
omit its datasets key and parsing succeeds. -/
theorem tech_multiplicity_check :
    (∀ (datasets : List String) (rows : List FileRow) (ts : List Technical),
      parseTechRows datasets rows [] = .ok ts → 1 < ts.length →
      ((∃ t ∈ ts, t.datasets = none) ∨
        (∃ d : String, 2 ≤ ts.countP (fun t => decide (d ∈ declaredDatasets t)))) →
      ∃ e, parse_file_tech datasets rows = .error e) ∧
    (∀ (datasets : List String) (rows : List FileRow) (t : Technical),
      parseTechRows datasets rows [] = .ok [t] →
      parse_file_tech datasets rows = .ok [t]) := by
  constructor
  · intro datasets rows ts hrows hlen hbad
    simp only [parse_file_tech, hrows]
    cases hc : checkTechAssociations ts with
    | error e => exact ⟨e, by simp⟩
    | ok u =>
      exfalso
      unfold checkTechAssociations at hc
      rw [if_pos hlen] at hc
      obtain ⟨hall, _, hpw⟩ := techCheckLoop_ok ts [] hc
      rcases hbad with ⟨t, ht, hnone⟩ | ⟨d, hcount⟩
      · exact hall t ht hnone
      · rw [List.countP_eq_length_filter] at hcount
        set p : Technical → Bool := fun t => decide (d ∈ declaredDatasets t) with hp
        cases hfl : ts.filter p with
        | nil => rw [hfl] at hcount; simp at hcount
        | cons t1 fl1 =>
          cases hfl1 : fl1 with
          | nil => rw [hfl, hfl1] at hcount; simp at hcount
          | cons t2 fl2 =>
            rw [hfl1] at hfl
            have hsub : (t1 :: t2 :: fl2).Sublist ts := hfl ▸ List.filter_sublist ts
            have hpw2 := hpw.sublist hsub
            have hrel := (List.pairwise_cons.mp hpw2).1 t2 (List.mem_cons_self _ _)
            have hd1 : d ∈ declaredDatasets t1 := by
              have ht1 : t1 ∈ ts.filter p := by
                rw [hfl]; exact List.mem_cons_self _ _
              have : p t1 = true := List.of_mem_filter ht1
              simpa [hp] using this
            have hd2 : d ∈ declaredDatasets t2 := by
              have ht2 : t2 ∈ ts.filter p := by
                rw [hfl]; exact List.mem_cons_of_mem _ (List.mem_cons_self _ _)
              have : p t2 = true := List.of_mem_filter ht2
              simpa [hp] using this
            exact hrel d hd1 hd2
  · intro datasets rows t hrows
    simp [parse_file_tech, hrows, checkTechAssociations]

/-- C5 witness: two technicals, both without a datasets key, fail the check. -/
theorem tech_multiplicity_check_witness :
    ∃ e, parse_file_tech [] [.data ["T1", "-", "", ""], .data ["T2", "-", "", ""]] = .error e :=
  tech_multiplicity_check.1 [] [.data ["T1", "-", "", ""], .data ["T2", "-", "", ""]]
    [⟨⟨"T1"⟩, none, none⟩, ⟨⟨"T2"⟩, none, none⟩] (by decide) (by decide)
    (Or.inl ⟨⟨⟨"T1"⟩, none, none⟩, by decide, rfl⟩)

theorem scopeDatasets_all_pending :
    ∀ (ds newNames : List String) (tname : String) (isRemote : Bool),
      (∀ d ∈ ds, d ∈ newNames) →
      scopeDatasets tname isRemote newNames ds = .ok ds := by
  intro ds
  induction ds with
  | nil => intro newNames tname isRemote _; rfl
  | cons d rest ih =>
    intro newNames tname isRemote h
    unfold scopeDatasets
    rw [if_pos (h d (List.mem_cons_self _ _)), ih newNames tname isRemote
      (fun x hx => h x (List.mem_cons_of_mem _ hx))]

theorem techEmit_new_all_pending :
    ∀ (t : Technical) (ds newNames : List String) (exTech : List (String × String)),
      t.datasets = some ds → ds ≠ [] → (∀ d ∈ ds, d ∈ newNames) →
      exTech.find? (fun el => el.1 == t.properties.name) = none →
      techEmit newNames exTech t = .ok [t, t] := by
  intro t ds newNames exTech hds hne hpend hfind
  have hrestore : ({ t with datasets := some ds } : Technical) = t := by
    cases t
    simp only at hds
    simp [hds]
  unfold techEmit
  rw [hfind, hds]
  simp only [Option.isSome_none]
  rw [scopeDatasets_all_pending ds newNames t.properties.name false hpend]
  simp [List.isEmpty_iff, hne, hrestore]

theorem reconcileTechnicals_append_point :
    ∀ (ts : List Technical) (newNames : List String) (exTech : List (String × String))
      (t : Technical) (l : List Technical),
      reconcileTechnicals newNames exTech ts = .ok l → t ∈ ts →
      techEmit newNames exTech t = .ok [t, t] →
      ∃ pre post, l = pre ++ t :: t :: post := by
  intro ts
  induction ts with
  | nil => intro _ _ _ _ _ hmem; simp at hmem
  | cons t0 rest ih =>
    intro newNames exTech t l h hmem hemit
    unfold reconcileTechnicals at h
    cases he : techEmit newNames exTech t0 with
    | error e => simp [he] at h
    | ok l0 =>
      simp only [he] at h
      cases hr : reconcileTechnicals newNames exTech rest with
      | error e => simp [hr] at h
      | ok l2 =>
        simp only [hr, Except.ok.injEq] at h
        rcases List.mem_cons.mp hmem with rfl | hmem2
        · have hl0 : l0 = [t, t] := by
            rw [he] at hemit
            exact (Except.ok.injEq _ _).mp hemit.symm |>.symm ▸ rfl
          refine ⟨[], l2, ?_⟩
          rw [← h, hl0]
          rfl
        · obtain ⟨pre, post, hl2⟩ := ih newNames exTech t l2 hr hmem2 hemit
          refine ⟨l0 ++ pre, post, ?_⟩
          rw [← h, hl2, List.append_assoc]

/-- C10: a technical absent remotely, declaring a non-empty dataset list whose
members are all still pending creation, appears twice in the technicals list of
the returned plan, at adjacent positions. -/
theorem technical_double_append :
    ∀ (tree : StudyTree) (remote : RemoteState) (plan : Plan) (t : Technical) (ds : List String),
      update_study_tree tree remote = .ok (some plan) →
      t ∈ tree.technicals → t.datasets = some ds → ds ≠ [] →
      remote.technicals.find? (fun el => el.1 == t.properties.name) = none →
      (∀ d ∈ ds, d ∈ plan.datasets.map (·.1)) →
      ∃ l pre post, plan.technicals = some l ∧ l = pre ++ t :: t :: post := by
  intro tree remote plan t ds hupd hmem hds hne hnr hpend
  unfold update_study_tree at hupd
  cases hst : remote.studies.find? (fun el => el.1 == tree.name) with
  | none => simp [hst] at hupd
  | some stEl =>
    simp only [hst] at hupd
    cases hrd : reconcileDatasets tree.datasets remote.datasets with
    | none => simp [hrd] at hupd
    | some newD =>
      simp only [hrd] at hupd
      cases hrp : reconcilePhenotypes (newD.map (·.1)) remote.phenotypes tree.phenotypes with
      | error e => simp [hrp] at hupd
      | ok pr =>
        obtain ⟨phens, toUpload⟩ := pr
        simp only [hrp] at hupd
        cases hrt : reconcileTechnicals (newD.map (·.1)) remote.technicals tree.technicals with
        | error e => simp [hrt] at hupd
        | ok techs =>
          simp only [hrt, Except.ok.injEq, Option.some.injEq] at hupd
          have hnil : tree.technicals.isEmpty = false := by
            cases htt : tree.technicals with
            | nil => rw [htt] at hmem; simp at hmem
            | cons a b => rfl
          have hplds : plan.datasets = newD := by rw [← hupd]
          have htpl : plan.technicals = some techs := by
            rw [← hupd]
            simp [hnil]
          have hemit := techEmit_new_all_pending t ds (newD.map (·.1)) remote.technicals hds hne
            (fun d hd => hplds ▸ hpend d hd) hnr
          obtain ⟨pre, post, hl⟩ :=
            reconcileTechnicals_append_point tree.technicals _ _ t techs hrt hmem hemit
          exact ⟨techs, pre, post, htpl, hl⟩

/-- C10 witness: the double append at a concrete study and remote state. -/
theorem technical_double_append_witness :
    ∃ (l pre post : List Technical),
      (Plan.mk "u0" "S" [("D1", [⟨"a.fastq.gz", true, 5⟩])] none none
        (some [⟨⟨"T3"⟩, some ["D1"], none⟩, ⟨⟨"T3"⟩, some ["D1"], none⟩])).technicals = some l ∧
      l = pre ++ ⟨⟨"T3"⟩, some ["D1"], none⟩ :: ⟨⟨"T3"⟩, some ["D1"], none⟩ :: post :=
  technical_double_append
    ⟨"S", [("D1", [⟨"a.fastq.gz", true, 5⟩])], [], none, [⟨⟨"T3"⟩, some ["D1"], none⟩]⟩
    ⟨[("S", "u0")], [("E", "u1", "ok")], [], []⟩
    (Plan.mk "u0" "S" [("D1", [⟨"a.fastq.gz", true, 5⟩])] none none
      (some [⟨⟨"T3"⟩, some ["D1"], none⟩, ⟨⟨"T3"⟩, some ["D1"], none⟩]))
    ⟨⟨"T3"⟩, some ["D1"], none⟩ ["D1"]
    (by decide) (by decide) rfl (by decide) (by decide) (by decide)

theorem insertFiles_vals :
    ∀ (acc : List (String × List FileNode)) (n : String) (fs : List FileNode),
      (∀ p ∈ acc, ∀ f ∈ p.2, qualifies f = true) →
      (∀ f ∈ fs, qualifies f = true) →
      ∀ p ∈ insertFiles acc n fs, ∀ f ∈ p.2, qualifies f = true := by
  intro acc
  induction acc with
  | nil =>
    intro n fs _ hfs p hp f hf
    simp only [insertFiles, List.mem_singleton] at hp
    subst hp
    exact hfs f hf
  | cons kv rest ih =>
    intro n fs hacc hfs p hp f hf
    obtain ⟨k, v⟩ := kv
    unfold insertFiles at hp
    by_cases hk : k = n
    · rw [if_pos hk] at hp
      rcases List.mem_cons.mp hp with rfl | hp2
      · rcases List.mem_append.mp hf with hfv | hffs
        · exact hacc (k, v) (List.mem_cons_self _ _) f hfv
        · exact hfs f hffs
      · exact hacc p (List.mem_cons_of_mem _ hp2) f hf
    · rw [if_neg hk] at hp
      rcases List.mem_cons.mp hp with rfl | hp2
      · exact hacc (k, v) (List.mem_cons_self _ _) f hf
      · exact ih n fs (fun q hq => hacc q (List.mem_cons_of_mem _ hq)) hfs p hp2 f hf

theorem buildDatasets_qualifies :
    ∀ (entries : List StudyEntry) (acc ds : List (String × List FileNode)),
      buildDatasets entries acc = some ds →
      (∀ p ∈ acc, ∀ f ∈ p.2, qualifies f = true) →
      ∀ p ∈ ds, ∀ f ∈ p.2, qualifies f = true := by
  intro entries
  induction entries with
  | nil =>
    intro acc ds h hacc
    unfold buildDatasets at h
    by_cases he : acc.isEmpty
    · simp [he] at h
    · rw [if_neg he, Option.some.injEq] at h
      rw [← h]
      exact hacc
  | cons e rest ih =>
    intro acc ds h hacc
    cases e with
    | nondir m =>
      rw [buildDatasets] at h
      exact ih acc ds h hacc
    | dir n ch =>
      simp only [buildDatasets] at h
      have hinv : ∀ p ∈ (if (ch.filter qualifies).isEmpty then acc
          else insertFiles acc n (ch.filter qualifies)), ∀ f ∈ p.2, qualifies f = true := by
        by_cases hq : (ch.filter qualifies).isEmpty
        · simpa [hq] using hacc
        · simp only [hq, if_false, ite_false]
          exact insertFiles_vals acc n _ hacc (fun f hf => List.of_mem_filter hf)
      split at h
      · split at h
        · exact absurd h (by simp)
        · exact ih _ ds h hinv
      · exact ih _ ds h hinv

theorem lookup_insertFiles_self :
    ∀ (acc : List (String × List FileNode)) (n : String) (fs : List FileNode),
      ∃ v, lookupDataset (insertFiles acc n fs) n = some v ∧ fs.length ≤ v.length := by
  intro acc
  induction acc with
  | nil =>
    intro n fs
    exact ⟨fs, by simp [insertFiles, lookupDataset], le_refl _⟩
  | cons kv rest ih =>
    intro n fs
    obtain ⟨k, v⟩ := kv
    by_cases hk : k = n
    · refine ⟨v ++ fs, ?_, ?_⟩
      · simp [insertFiles, hk, lookupDataset]
      · simp
    · obtain ⟨w, hw, hlen⟩ := ih n fs
      refine ⟨w, ?_, hlen⟩
      simp only [insertFiles, if_neg hk]
      simp only [lookupDataset] at hw ⊢
      rw [List.find?_cons_of_neg]
      · exact hw
      · simp [hk]

theorem lookupDataset_fresh_none :
    ∀ (acc : List (String × List FileNode)) (n : String),
      (∀ p ∈ acc, p.1 ≠ n) → lookupDataset acc n = none := by
  intro acc
  induction acc with
  | nil => intro n _; rfl
  | cons kv rest ih =>
    intro n h
    simp only [lookupDataset]
    rw [List.find?_cons_of_neg]
    · exact ih n (fun p hp => h p (List.mem_cons_of_mem _ hp))
    · simp [h kv (List.mem_cons_self _ _)]

theorem insertFiles_fresh :
    ∀ (acc : List (String × List FileNode)) (n : String) (fs : List FileNode),
      (∀ p ∈ acc, p.1 ≠ n) → insertFiles acc n fs = acc ++ [(n, fs)] := by
  intro acc
  induction acc with
  | nil => intro n fs _; rfl
  | cons kv rest ih =>
    intro n fs h
    obtain ⟨k, v⟩ := kv
    simp only [insertFiles]
    rw [if_neg (h (k, v) (List.mem_cons_self _ _)), ih n fs
      (fun p hp => h p (List.mem_cons_of_mem _ hp))]
    rfl

theorem lookup_append_fresh :
    ∀ (acc : List (String × List FileNode)) (n : String) (fs : List FileNode),
      (∀ p ∈ acc, p.1 ≠ n) → lookupDataset (acc ++ [(n, fs)]) n = some fs := by
  intro acc
  induction acc with
  | nil => intro n fs _; simp [lookupDataset]
  | cons kv rest ih =>
    intro n fs h
    simp only [List.cons_append, lookupDataset]
    rw [List.find?_cons_of_neg]
    · exact ih n fs (fun p hp => h p (List.mem_cons_of_mem _ hp))
    · simp [h kv (List.mem_cons_self _ _)]

theorem memName :
    ∀ (entries : List StudyEntry) (n : String) (ch : List FileNode),
      .dir n ch ∈ entries → n ∈ dirNames entries := by
  intro entries n ch h
  exact List.mem_filterMap.mpr ⟨.dir n ch, h, rfl⟩

theorem no_qualifying_abandons :
    ∀ (entries : List StudyEntry),
      (∀ n ch, .dir n ch ∈ entries → ch.filter qualifies = []) →
      buildDatasets entries [] = none := by
  intro entries
  induction entries with
  | nil => intro _; rfl
  | cons e rest ih =>
    intro h
    cases e with
    | nondir m =>
      rw [buildDatasets]
      exact ih (fun n ch hm => h n ch (List.mem_cons_of_mem _ hm))
    | dir n ch =>
      have hfil : ch.filter qualifies = [] := h n ch (List.mem_cons_self _ _)
      simp only [buildDatasets, hfil, List.isEmpty_nil, if_true, ite_true, lookupDataset,
        List.find?_nil, Option.map_none']
      exact ih (fun n2 ch2 hm => h n2 ch2 (List.mem_cons_of_mem _ hm))

theorem dir_overflow_abandons :
    ∀ (entries : List StudyEntry) (acc : List (String × List FileNode)) (n : String)
      (ch : List FileNode),
      .dir n ch ∈ entries → 2 < (ch.filter qualifies).length →
      buildDatasets entries acc = none := by
  intro entries
  induction entries with
  | nil => intro acc n ch hmem _; simp at hmem
  | cons e rest ih =>
    intro acc n ch hmem hcount
    rcases List.mem_cons.mp hmem with heq | hmem2
    · subst heq
      have hq : (ch.filter qualifies).isEmpty = false := by
        cases hfe : ch.filter qualifies with
        | nil => rw [hfe] at hcount; simp at hcount
        | cons a b => rfl
      obtain ⟨v, hv, hlen⟩ := lookup_insertFiles_self acc n (ch.filter qualifies)
      have hvl : 2 < v.length := lt_of_lt_of_le hcount hlen
      simp [buildDatasets, hq, hv, hvl]
    · cases e with
      | nondir m =>
        rw [buildDatasets]
        exact ih acc n ch hmem2 hcount
      | dir n2 ch2 =>
        simp only [buildDatasets]
        split
        · split
          · rfl
          · exact ih _ n ch hmem2 hcount
        · exact ih _ n ch hmem2 hcount

theorem buildDatasets_clean :
    ∀ (entries : List StudyEntry) (acc : List (String × List FileNode)),
      (dirNames entries).Nodup →
      (∀ n ch, .dir n ch ∈ entries → (ch.filter qualifies).length ≤ 2) →
      (∀ p ∈ acc, p.1 ∉ dirNames entries) →
      buildDatasets entries acc =
        if (acc ++ collectDatasets entries).isEmpty then none
        else some (acc ++ collectDatasets entries) := by
  intro entries
  induction entries with
  | nil =>
    intro acc _ _ _
    simp [buildDatasets, collectDatasets]
  | cons e rest ih =>
    intro acc hnd hbound hfresh
    cases e with
    | nondir m =>
      have hdn : dirNames (.nondir m :: rest) = dirNames rest := rfl
      have hcol : collectDatasets (.nondir m :: rest) = collectDatasets rest := rfl
      rw [buildDatasets, hcol]
      exact ih acc (hdn ▸ hnd) (fun n ch hm => hbound n ch (List.mem_cons_of_mem _ hm))
        (fun p hp => hdn ▸ hfresh p hp)
    | dir n ch =>
      have hdn : dirNames (.dir n ch :: rest) = n :: dirNames rest := rfl
      rw [hdn] at hnd
      have hn_notin : n ∉ dirNames rest := (List.nodup_cons.mp hnd).1
      have hnd_rest : (dirNames rest).Nodup := (List.nodup_cons.mp hnd).2
      have hfresh_n : ∀ p ∈ acc, p.1 ≠ n := by
        intro p hp he
        exact hfresh p hp (hdn ▸ (he ▸ List.mem_cons_self n (dirNames rest)))
      have hfresh_rest : ∀ p ∈ acc, p.1 ∉ dirNames rest := by
        intro p hp hmem
        exact hfresh p hp (hdn ▸ List.mem_cons_of_mem n hmem)
      by_cases hq : (ch.filter qualifies).isEmpty = true
      · have hcol : collectDatasets (.dir n ch :: rest) = collectDatasets rest := by
          unfold collectDatasets
          rw [List.filterMap_cons]
          simp only [collectEntry]
          rw [if_pos hq]
        have hc2 : (if (ch.filter qualifies).isEmpty then acc
            else insertFiles acc n (ch.filter qualifies)) = acc := if_pos hq
        have hlk : lookupDataset acc n = none := lookupDataset_fresh_none acc n hfresh_n
        simp only [buildDatasets]
        rw [hc2]
        simp only [hlk]
        rw [hcol]
        exact ih acc hnd_rest (fun n2 ch2 hm => hbound n2 ch2 (List.mem_cons_of_mem _ hm))
          hfresh_rest
      · have hins : insertFiles acc n (ch.filter qualifies) = acc ++ [(n, ch.filter qualifies)] :=
          insertFiles_fresh acc n _ hfresh_n
        have hcol : collectDatasets (.dir n ch :: rest)
            = (n, ch.filter qualifies) :: collectDatasets rest := by
          unfold collectDatasets
          rw [List.filterMap_cons]
          simp only [collectEntry]
          rw [if_neg hq]
        have hc2 : (if (ch.filter qualifies).isEmpty then acc
            else insertFiles acc n (ch.filter qualifies)) = acc ++ [(n, ch.filter qualifies)] := by
          rw [if_neg hq, hins]
        have hlk : lookupDataset (acc ++ [(n, ch.filter qualifies)]) n
            = some (ch.filter qualifies) := lookup_append_fresh acc n _ hfresh_n
        have hb : ¬ 2 < (ch.filter qualifies).length :=
          not_lt.mpr (hbound n ch (List.mem_cons_self _ _))
        have hfresh2 : ∀ p ∈ acc ++ [(n, ch.filter qualifies)], p.1 ∉ dirNames rest := by
          intro p hp
          rcases List.mem_append.mp hp with hp2 | hp2
          · exact hfresh_rest p hp2
          · rw [List.mem_singleton.mp hp2]
            exact hn_notin
        simp only [buildDatasets]
        rw [hc2]
        simp only [hlk]
        rw [if_neg hb, ih (acc ++ [(n, ch.filter qualifies)]) hnd_rest
          (fun n2 ch2 hm => hbound n2 ch2 (List.mem_cons_of_mem _ hm)) hfresh2,
          hcol, List.append_assoc]
        rfl

theorem lookup_collect :
    ∀ (entries : List StudyEntry) (n : String) (ch : List FileNode),
      (dirNames entries).Nodup → .dir n ch ∈ entries →
      (ch.filter qualifies).isEmpty = false →
      lookupDataset (collectDatasets entries) n = some (ch.filter qualifies) := by
  intro entries
  induction entries with
  | nil => intro n ch _ hmem _; simp at hmem
  | cons e rest ih =>
    intro n ch hnd hmem hq
    rcases List.mem_cons.mp hmem with heq | hmem2
    · subst heq
      have hcond : ¬((ch.filter qualifies).isEmpty = true) := by
        rw [hq]; simp
      have hcol : collectDatasets (.dir n ch :: rest)
          = (n, ch.filter qualifies) :: collectDatasets rest := by
        unfold collectDatasets
        rw [List.filterMap_cons]
        simp only [collectEntry]
        rw [if_neg hcond]
      rw [hcol]
      simp only [lookupDataset]
      rw [List.find?_cons_of_pos]
      · simp
      · simp
    · cases e with
      | nondir m =>
        have hcol : collectDatasets (.nondir m :: rest) = collectDatasets rest := rfl
        rw [hcol]
        exact ih n ch hnd hmem2 hq
      | dir n2 ch2 =>
        have hdn : dirNames (.dir n2 ch2 :: rest) = n2 :: dirNames rest := rfl
        rw [hdn] at hnd
        have hne : n2 ≠ n := by
          intro he
          exact (List.nodup_cons.mp hnd).1 (he ▸ memName rest n ch hmem2)
        by_cases hq2 : (ch2.filter qualifies).isEmpty = true
        · have hcol : collectDatasets (.dir n2 ch2 :: rest) = collectDatasets rest := by
            unfold collectDatasets
            rw [List.filterMap_cons]
            simp only [collectEntry]
            rw [if_pos hq2]
          rw [hcol]
          exact ih n ch (List.nodup_cons.mp hnd).2 hmem2 hq
        · have hcol : collectDatasets (.dir n2 ch2 :: rest)
              = (n2, ch2.filter qualifies) :: collectDatasets rest := by
            unfold collectDatasets
            rw [List.filterMap_cons]
            simp only [collectEntry]
            rw [if_neg hq2]
          rw [hcol]
          simp only [lookupDataset]
          rw [List.find?_cons_of_neg]
          · exact ih n ch (List.nodup_cons.mp hnd).2 hmem2 hq
          · simp [hne]

theorem collect_mem :
    ∀ (entries : List StudyEntry) (n : String) (ch : List FileNode),
      .dir n ch ∈ entries → (ch.filter qualifies).isEmpty = false →
      (n, ch.filter qualifies) ∈ collectDatasets entries := by
  intro entries n ch hmem hq
  refine List.mem_filterMap.mpr ⟨.dir n ch, hmem, ?_⟩
  simp only [collectEntry]
  rw [if_neg (by rw [hq]; simp)]

/-- C6: the walk of validate_study includes only regular files with the exact
suffix .fastq.gz and size at least one byte; a subdirectory with more than two
qualifying files, or a walk with no qualifying dataset at all, makes
validate_study return no study; and on a clean walk each dataset keeps exactly
its one or two qualifying files. -/
theorem local_tree_builder_rules :
    (∀ (entries : List StudyEntry) (ds : List (String × List FileNode)),
      buildDatasets entries [] = some ds →
      ∀ p ∈ ds, ∀ f ∈ p.2, qualifies f = true) ∧
    (∀ (name : String) (entries : List StudyEntry) (n : String) (ch : List FileNode)
      (pedResult : Option (Except Err (List Phenotype × List (String × List String))))
      (techResult : Option (Except Err (List Technical))),
      .dir n ch ∈ entries → 2 < (ch.filter qualifies).length →
      validate_study name entries pedResult techResult = none) ∧
    (∀ (name : String) (entries : List StudyEntry)
      (pedResult : Option (Except Err (List Phenotype × List (String × List String))))
      (techResult : Option (Except Err (List Technical))),
      (∀ n ch, .dir n ch ∈ entries → ch.filter qualifies = []) →
      validate_study name entries pedResult techResult = none) ∧
    (∀ (name : String) (entries : List StudyEntry),
      (dirNames entries).Nodup →
      (∀ n ch, .dir n ch ∈ entries → (ch.filter qualifies).length ≤ 2) →
      (∃ n ch, .dir n ch ∈ entries ∧ (ch.filter qualifies).isEmpty = false) →
      buildDatasets entries [] = some (collectDatasets entries) ∧
      (∀ n ch, .dir n ch ∈ entries → (ch.filter qualifies).isEmpty = false →
        lookupDataset (collectDatasets entries) n = some (ch.filter qualifies)) ∧
      validate_study name entries none none
        = some ⟨name, collectDatasets entries, [], none, []⟩) := by
  refine ⟨?_, ?_, ?_, ?_⟩
  · intro entries ds h
    exact buildDatasets_qualifies entries [] ds h (by simp)
  · intro name entries n ch pedResult techResult hmem hcount
    have hb : buildDatasets entries [] = none := dir_overflow_abandons entries [] n ch hmem hcount
    simp [validate_study, hb]
  · intro name entries pedResult techResult hall
    have hb : buildDatasets entries [] = none := no_qualifying_abandons entries hall
    simp [validate_study, hb]
  · intro name entries hnd hbound hex
    have hne : (collectDatasets entries).isEmpty = false := by
      obtain ⟨n, ch, hmem, hq⟩ := hex
      have := collect_mem entries n ch hmem hq
      cases hce : collectDatasets entries with
      | nil => rw [hce] at this; simp at this
      | cons a b => rfl
    have hb : buildDatasets entries [] = some (collectDatasets entries) := by
      rw [buildDatasets_clean entries [] hnd hbound (by simp)]
      simp [hne]
    refine ⟨hb, ?_, ?_⟩
    · intro n ch hmem hq
      exact lookup_collect entries n ch hnd hmem hq
    · simp [validate_study, hb]

/-- C6 witness: a study with one dataset of two qualifying files and a
pedigree placeholder entry is retained unchanged. -/
theorem local_tree_builder_rules_witness :
    buildDatasets [.dir "D1" [⟨"a.fastq.gz", true, 5⟩, ⟨"b.fastq.gz", true, 3⟩],
        .nondir "pedigree.txt"] []
      = some (collectDatasets [.dir "D1" [⟨"a.fastq.gz", true, 5⟩, ⟨"b.fastq.gz", true, 3⟩],
        .nondir "pedigree.txt"]) ∧
    validate_study "S" [.dir "D1" [⟨"a.fastq.gz", true, 5⟩, ⟨"b.fastq.gz", true, 3⟩],
        .nondir "pedigree.txt"] none none
      = some ⟨"S", collectDatasets [.dir "D1" [⟨"a.fastq.gz", true, 5⟩, ⟨"b.fastq.gz", true, 3⟩],
        .nondir "pedigree.txt"], [], none, []⟩ :=
  (fun h => ⟨h.1, h.2.2⟩)
    (local_tree_builder_rules.2.2.2 "S"
      [.dir "D1" [⟨"a.fastq.gz", true, 5⟩, ⟨"b.fastq.gz", true, 3⟩], .nondir "pedigree.txt"]
      (by decide)
      (by
        intro n ch hmem
        rcases List.mem_cons.mp hmem with heq | hmem2
        · injection heq with h1 h2
          subst h1
          subst h2
          decide
        · rcases List.mem_cons.mp hmem2 with heq2 | h3
          · cases heq2
          · simp at h3)
      ⟨"D1", [⟨"a.fastq.gz", true, 5⟩, ⟨"b.fastq.gz", true, 3⟩], by decide, by decide⟩)

end NigUpload
